import Mathlib

/-!
Verification of the shaderc compiler core (`src/libshaderc_util/src/compiler.cc`).

The source text of a compilation unit is embedded as a `List Char`.  The four
components under verification are embedded as executable Lean functions that
mirror the C++ source line by line:

* `LineDirectiveIsForNextLine` (compiler.cc lines 46-48),
* `GetLineDirective` (compiler.cc lines 51-53),
* `Compiler::CleanupPreamble` (compiler.cc lines 213-278),
* `Compiler::GetShaderStageFromSourceCode` (compiler.cc lines 280-358),
* `Compiler::DeduceVersionProfile` / `Compiler::GetVersionProfileFromSourceCode`
  (compiler.cc lines 360-397).

Helper routines that the source file uses but that are declared in headers not
present in the repository snapshot (`string_piece.h`, `version_profile.h`,
`shader_stage.h`, and the glslang enums) are modelled from the specification;
each such definition carries a doc comment that says so.
-/

namespace Shaderc

/-- A source text or fragment of one: a sequence of characters. -/
abbrev Chars := List Char

/-- Modelled from the spec: the whitespace test used by
`string_piece::strip_whitespace` (declared in `libshaderc_util/string_piece.h`,
which is not under `src/`): blanks, tabs, newlines and other ASCII space
characters. -/
def isSpaceChar (c : Char) : Bool :=
  c = ' ' || c = '\t' || c = '\n' || c = '\r' || c = '\x0b' || c = '\x0c'

/-- Modelled from the spec: `string_piece::strip_whitespace` (declared in
`libshaderc_util/string_piece.h`, not under `src/`) removes whitespace
characters from both ends of a piece. -/
def stripWhitespace (s : Chars) : Chars :=
  ((s.dropWhile isSpaceChar).reverse.dropWhile isSpaceChar).reverse

/-- Modelled from the spec: `string_piece::strip` (declared in
`libshaderc_util/string_piece.h`, not under `src/`) removes any characters of
the given set from both ends of a piece; `compiler.cc` uses it as
`strip("()")` to peel the parentheses off a stage-pragma argument. -/
def stripChars (set : Chars) (s : Chars) : Chars :=
  ((s.dropWhile (fun c => set.contains c)).reverse.dropWhile
      (fun c => set.contains c)).reverse

/-- Modelled from the spec: `string_piece::starts_with` (declared in
`libshaderc_util/string_piece.h`, not under `src/`): a case-sensitive literal
test for `pat` at the start of `s`. -/
def starts_with (pat s : Chars) : Bool :=
  match pat, s with
  | [], _ => true
  | _ :: _, [] => false
  | c :: cs, d :: ds => c = d && starts_with cs ds

/-- Helper for `get_fields`: `acc` is the current partially read field. -/
def getFieldsAux (delim : Char) (keep : Bool) : Chars → Chars → List Chars
  | acc, [] => if acc = [] then [] else [acc]
  | acc, c :: cs =>
    if c = delim then
      (acc ++ if keep then [delim] else []) :: getFieldsAux delim keep [] cs
    else
      getFieldsAux delim keep (acc ++ [c]) cs

/-- Modelled from the spec: `string_piece::get_fields` (declared in
`libshaderc_util/string_piece.h`, not under `src/`): split the text at every
occurrence of the delimiter, each field optionally retaining its trailing
delimiter; a final empty remainder produces no field. -/
def get_fields (s : Chars) (delim : Char) (keep : Bool) : List Chars :=
  getFieldsAux delim keep [] s

/-- Decimal digits of `n`, most significant first; the fuel always suffices
because `n / 10 < n` for `n ≥ 10`. `acc` holds digits already produced. -/
def natToCharsAux : Nat → Nat → Chars → Chars
  | 0, _, acc => acc
  | fuel + 1, n, acc =>
    let d := Char.ofNat (48 + n % 10)
    if n < 10 then d :: acc else natToCharsAux fuel (n / 10) (d :: acc)

/-- Decimal rendering of a natural number, as `std::to_string` produces it. -/
def natToChars (n : Nat) : Chars := natToCharsAux (n + 1) n []

/-- Decimal rendering of an integer, as `std::to_string` produces it. -/
def intToChars (i : Int) : Chars :=
  if i < 0 then '-' :: natToChars i.natAbs else natToChars i.toNat

/-- Value of a string of decimal digits (zero when empty). -/
def digitsToNat (ds : Chars) : Nat :=
  ds.foldl (fun acc c => acc * 10 + (c.toNat - 48)) 0

/-- Helper for `findSubstr`: search for `pat` in the suffix `t`, whose first
character sits at absolute position `i` of the searched text. -/
def findSubstrFrom (pat : Chars) : Nat → Chars → Option Nat
  | i, [] => if starts_with pat [] then some i else none
  | i, c :: ts => if starts_with pat (c :: ts) then some i else findSubstrFrom pat (i + 1) ts

/-- Modelled from the spec: `string_piece::find` (declared in
`libshaderc_util/string_piece.h`, not under `src/`): position of the leftmost
occurrence of `pat` in `s`, or `none`. -/
def findSubstr (pat s : Chars) : Option Nat := findSubstrFrom pat 0 s

/-- The glslang profile enumeration `EProfile` (external to this repository). -/
inductive EProfile where
  | ENoProfile
  | ECoreProfile
  | ECompatibilityProfile
  | EEsProfile
deriving DecidableEq, Repr

/-- The glslang stage enumeration `EShLanguage` (external to this repository);
`EShLangCount` doubles as the "undetected / invalid" sentinel. -/
inductive EShLanguage where
  | EShLangVertex
  | EShLangTessControl
  | EShLangTessEvaluation
  | EShLangGeometry
  | EShLangFragment
  | EShLangCompute
  | EShLangCount
deriving DecidableEq, Repr

/-- compiler.cc lines 46-48: returns true if a `#line` directive sets the line
number for the next line in the given version and profile. -/
def LineDirectiveIsForNextLine (version : Int) (profile : EProfile) : Bool :=
  decide (profile = EProfile.EEsProfile) || decide (330 ≤ version)

/-- compiler.cc lines 51-53: a `#line` directive whose arguments are `line`
and `filename`. -/
def GetLineDirective (line : Int) (filename : Chars) : Chars :=
  "#line ".data ++ intToChars line ++ " \"".data ++ filename ++ "\"\n".data

/-- compiler.cc lines 71-72: the injected include-enabling directive. -/
def poundExtension : Chars :=
  "#extension GL_GOOGLE_include_directive : enable\n".data

/-- compiler.cc lines 236-247, the first loop of `CleanupPreamble`: walk the
lines, remembering the first line equal to `poundExt`, and stop at the first
line that starts with `#version`.  `n` is the total number of lines, `i` the
index of the head of `ls`, `pe` the best `pound_extension_index` so far.
Returns `(pound_extension_index, pound_version_index)`. -/
def scanIndicesGo (poundExt : Chars) (n : Nat) : Nat → List Chars → Nat → Nat × Nat
  | _, [], pe => (pe, n)
  | i, l :: ls, pe =>
    if l = poundExt then scanIndicesGo poundExt n (i + 1) ls (min i pe)
    else if starts_with ("#version".data) l then (pe, i)
    else scanIndicesGo poundExt n (i + 1) ls pe

/-- The pair `(pound_extension_index, pound_version_index)` computed by the
first loop of `CleanupPreamble` (compiler.cc lines 234-247); indices that were
never assigned keep the value `lines.length`. -/
def scanIndices (poundExt : Chars) (lines : List Chars) : Nat × Nat :=
  scanIndicesGo poundExt lines.length 0 lines lines.length

/-- compiler.cc line 250: the contract assertion
`assert(pound_extension_index < lines.size())`. -/
def CleanupPreambleAssert (poundExt : Chars) (lines : List Chars) : Prop :=
  (scanIndices poundExt lines).1 < lines.length

/-- compiler.cc line 244: the `#version` line emitted (during the first loop)
ahead of everything else when includes were expanded. -/
def versionHeadChunks (lines : List Chars) (pv : Nat) (numInc : Int) : List Chars :=
  if pv < lines.length ∧ 0 < numInc then [lines.getD pv []] else []

/-- compiler.cc lines 252-257: the lines before `pound_extension_index` that
are not entirely whitespace. -/
def keptPrefixChunks (lines : List Chars) (pe : Nat) : List Chars :=
  (lines.take pe).filter (fun l => !(stripWhitespace l).isEmpty)

/-- compiler.cc lines 259-263: when includes were expanded, re-emit the
injected directive followed by a `#line` directive for the main file.  The
C++ passes the bool `is_for_next_line` where `GetLineDirective` expects an
`int`, so the emitted line number is 1 for `true` and 0 for `false`. -/
def includeChunks (errorTag poundExt : Chars) (numInc : Int) (isNext : Bool) : List Chars :=
  if 0 < numInc then
    [poundExt, GetLineDirective (if isNext then 1 else 0) errorTag]
  else []

/-- compiler.cc lines 265-275, the body of the last loop: line `i` is emitted
verbatim unless it is the `#version` line, which (when includes were expanded)
is replaced by a blank line. -/
def tailChunk (lines : List Chars) (pv : Nat) (numInc : Int) (i : Nat) : Chars :=
  if i = pv then (if 0 < numInc then ['\n'] else lines.getD i []) else lines.getD i []

/-- compiler.cc lines 265-275: the chunks emitted by the last loop, for
indices `pound_extension_index + 1 ≤ i < lines.length`. -/
def tailChunks (lines : List Chars) (pe pv : Nat) (numInc : Int) : List Chars :=
  (List.range' (pe + 1) (lines.length - (pe + 1))).map (tailChunk lines pv numInc)

/-- The sequence of chunks `Compiler::CleanupPreamble` writes to its output
stream, in emission order (compiler.cc lines 229-277). -/
def CleanupPreambleLines (lines : List Chars) (errorTag poundExt : Chars)
    (numInc : Int) (isNext : Bool) : List Chars :=
  versionHeadChunks lines (scanIndices poundExt lines).2 numInc
    ++ keptPrefixChunks lines (scanIndices poundExt lines).1
    ++ includeChunks errorTag poundExt numInc isNext
    ++ tailChunks lines (scanIndices poundExt lines).1 (scanIndices poundExt lines).2 numInc

/-- compiler.cc lines 213-278: `Compiler::CleanupPreamble`.  The preprocessed
shader is split into lines that keep their trailing newline (line 230) and the
emitted chunks are concatenated (the `std::ostringstream`). -/
def CleanupPreamble (preprocessedShader errorTag poundExt : Chars)
    (numInc : Int) (isNext : Bool) : Chars :=
  (CleanupPreambleLines (get_fields preprocessedShader '\n' true)
      errorTag poundExt numInc isNext).flatten

/-- The first physical line of a text, retaining its terminating newline when
it has one. -/
def firstLine : Chars → Chars
  | [] => []
  | c :: cs => if c = '\n' then ['\n'] else c :: firstLine cs

/-- Modelled from the spec: `ParseVersionProfile` (declared in
`libshaderc_util/version_profile.h`, which is not under `src/`).  Parses a
space-stripped `#version` argument of the form `<integer>[profile-suffix]`,
where the suffix is one of a fixed small set of tags; any other trailing text
fails the parse, and failure returns no partial result. -/
def ParseVersionProfile (vp : Chars) : Option (Int × EProfile) :=
  let digits := vp.takeWhile (fun c => c.isDigit)
  let rest := vp.dropWhile (fun c => c.isDigit)
  if digits = [] then none
  else
    let version : Int := Int.ofNat (digitsToNat digits)
    if rest = [] then some (version, EProfile.ENoProfile)
    else if rest = "es".data then some (version, EProfile.EEsProfile)
    else if rest = "core".data then some (version, EProfile.ECoreProfile)
    else if rest = "compatibility".data then some (version, EProfile.ECompatibilityProfile)
    else none

/-- compiler.cc lines 375-397: `Compiler::GetVersionProfileFromSourceCode`.
Locate the leftmost `#version`, take the rest of its line up to the next
newline, drop every space character, and parse the remainder; any failure
yields `(0, ENoProfile)`. -/
def GetVersionProfileFromSourceCode (preprocessedShader : Chars) : Int × EProfile :=
  match findSubstr ("#version".data) preprocessedShader with
  | none => (0, EProfile.ENoProfile)
  | some loc =>
    let afterToken := (preprocessedShader.drop (loc + ("#version".data).length)).takeWhile
      (fun c => c ≠ '\n')
    let versionProfile := afterToken.filter (fun c => c ≠ ' ')
    match ParseVersionProfile versionProfile with
    | none => (0, EProfile.ENoProfile)
    | some r => r

/-- The `Compiler` state that `DeduceVersionProfile` reads (compiler.h):
the default version/profile and whether the caller forced them. -/
structure Compiler where
  default_version : Int
  default_profile : EProfile
  force_version_profile : Bool

/-- compiler.cc lines 360-373: `Compiler::DeduceVersionProfile`.  A forced
version/profile wins outright; otherwise the parsed pair is used unless it is
the undetected sentinel `(0, ENoProfile)`, in which case the defaults apply. -/
def DeduceVersionProfile (c : Compiler) (preprocessedShader : Chars) : Int × EProfile :=
  if c.force_version_profile then (c.default_version, c.default_profile)
  else
    let vp := GetVersionProfileFromSourceCode preprocessedShader
    if vp.1 = 0 ∧ vp.2 = EProfile.ENoProfile then (c.default_version, c.default_profile)
    else vp

/-- Modelled from the spec: `MapStageNameToLanguage` (declared in
`libshaderc_util/shader_stage.h`, which is not under `src/`): the fixed lookup
from a stage-pragma name to a stage identifier; an unrecognized name maps to
the `EShLangCount` sentinel. -/
def MapStageNameToLanguage (name : Chars) : EShLanguage :=
  if name = "vertex".data then EShLanguage.EShLangVertex
  else if name = "fragment".data then EShLanguage.EShLangFragment
  else if name = "tesscontrol".data then EShLanguage.EShLangTessControl
  else if name = "tesseval".data then EShLanguage.EShLangTessEvaluation
  else if name = "geometry".data then EShLanguage.EShLangGeometry
  else if name = "compute".data then EShLanguage.EShLangCompute
  else EShLanguage.EShLangCount

/-- Model of `std::atoi` on a NUL-terminated C string, given as the list of
characters up to the terminator: skip leading whitespace (which may include
line breaks), read an optional sign and then decimal digits, yielding 0 when
no digits follow.  compiler.cc line 318 applies it to
`current_line.substr(kLineDirective.size()).data()`, a pointer into the
preprocessed shader's buffer, so the scan is not confined to the current
line: when nothing follows `#line` on its line, the whitespace skip crosses
the newline and the digits are read from the following lines. -/
def atoiChars (s : Chars) : Int :=
  let t := s.dropWhile isSpaceChar
  match t with
  | '-' :: u => - Int.ofNat (digitsToNat (u.takeWhile (fun c => c.isDigit)))
  | '+' :: u => Int.ofNat (digitsToNat (u.takeWhile (fun c => c.isDigit)))
  | _ => Int.ofNat (digitsToNat (t.takeWhile (fun c => c.isDigit)))

/-- Conversion of an `int` value to the `size_t` variable
`logical_line_no` (compiler.cc line 317): reduction modulo `2 ^ 64`. -/
def toSizeT (i : Int) : Nat := (i % (2 : Int) ^ 64).toNat

/-- compiler.cc line 282: the stage-pragma marker. -/
def kPragmaShaderStageDirective : Chars := "#pragma shader_stage".data

/-- compiler.cc line 283: the line-directive marker. -/
def kLineDirective : Chars := "#line".data

/-- The accumulating state of the scanning loop of
`GetShaderStageFromSourceCode` (compiler.cc lines 294-298): the recorded
`(logical line, stage name)` pairs and the two physical-line watermarks. -/
structure ScanState where
  stages : List (Nat × Chars)
  firstPragmaShaderStage : Nat
  firstNonPPLine : Nat
deriving DecidableEq, Repr

/-- compiler.cc lines 301-309, the state update for one line: record a stage
pragma (with the current logical line number), or move the first-real-code
watermark; `i` is the zero-based physical index of the line. -/
def scanStep (i logical : Nat) (l : Chars) (st : ScanState) : ScanState :=
  let cur := stripWhitespace l
  if starts_with kPragmaShaderStageDirective cur then
    { st with
        stages := st.stages
          ++ [(logical, stripChars ("()".data) (cur.drop kPragmaShaderStageDirective.length))],
        firstPragmaShaderStage := min st.firstPragmaShaderStage (i + 1) }
  else if !cur.isEmpty && !starts_with ("#".data) cur then
    { st with firstNonPPLine := min st.firstNonPPLine (i + 1) }
  else st

/-- compiler.cc lines 311-322: the logical line number for the next line.
On a line whose stripped text starts with `#line`, the counter is set to the
parsed integer plus 0 (next-line convention) or plus 1 (legacy convention);
otherwise it is incremented.  The parsed integer is `std::atoi` applied to
`current_line.substr(kLineDirective.size()).data()`: a pointer into the
NUL-terminated shader buffer at offset `pos` (the line's start) plus the
line's stripped leading whitespace plus the length of `#line`, so the model
hands `atoiChars` the entire remaining buffer suffix from that offset, not
just the rest of the line. -/
def nextLogical (isNext : Bool) (s : Chars) (pos : Nat) (l : Chars) (logical : Nat) : Nat :=
  if starts_with kLineDirective (stripWhitespace l) then
    toSizeT (atoiChars (s.drop (pos + (l.length - (l.dropWhile isSpaceChar).length)
        + kLineDirective.length))
      + (if isNext then 0 else 1))
  else logical + 1

/-- compiler.cc lines 300-323: the scanning loop of
`GetShaderStageFromSourceCode`, over the remaining lines.  `s` is the whole
preprocessed shader and `pos` the buffer offset of the head of the remaining
lines (each line is followed by one newline in the buffer), which locates
the argument `std::atoi` reads at line 318. -/
def scanGo (isNext : Bool) (s : Chars) : Nat → Nat → Nat → List Chars → ScanState → ScanState
  | _, _, _, [], st => st
  | i, pos, logical, l :: ls, st =>
    scanGo isNext s (i + 1) (pos + l.length + 1) (nextLogical isNext s pos l logical) ls
      (scanStep i logical l st)

/-- The full scan of a preprocessed shader: split on newlines (compiler.cc
lines 290-291, without keeping the delimiter) and run the loop from physical
index 0, buffer offset 0, logical line number 1, and both watermarks at
`lines.size() + 1`. -/
def scanShaderStages (isNext : Bool) (preprocessedShader : Chars) : ScanState :=
  let lines := get_fields preprocessedShader '\n' false
  scanGo isNext preprocessedShader 0 0 1 lines
    { stages := [],
      firstPragmaShaderStage := lines.length + 1,
      firstNonPPLine := lines.length + 1 }

/-- compiler.cc lines 331-335: the misplaced-pragma diagnostic. -/
def misplacedDiag (filename : Chars) (line : Nat) : Chars :=
  filename ++ ":".data ++ natToChars line
    ++ ": error: '#pragma': the first 'shader_stage' #pragma must appear before any non-preprocessing code\n".data

/-- compiler.cc lines 338-343: the unrecognized-stage diagnostic. -/
def invalidStageDiag (filename : Chars) (line : Nat) (text : Chars) : Chars :=
  filename ++ ":".data ++ natToChars line
    ++ ": error: '#pragma': invalid stage for 'shader_stage' #pragma: '".data
    ++ text ++ "'\n".data

/-- compiler.cc lines 345-354: the conflicting-stages diagnostic. -/
def conflictDiag (filename : Chars) (line : Nat) (text : Chars)
    (line0 : Nat) (text0 : Chars) : Chars :=
  filename ++ ":".data ++ natToChars line
    ++ ": error: '#pragma': conflicting stages for 'shader_stage' #pragma: '".data
    ++ text ++ "' (was '".data ++ text0 ++ "' at ".data ++ filename ++ ":".data
    ++ natToChars line0 ++ ")\n".data

/-- compiler.cc lines 326-354: the diagnostics accumulated into
`error_message`, in emission order: a misplacement diagnostic, then an
unrecognized-first-stage diagnostic, then one conflict diagnostic per later
occurrence whose stage name differs from the first one. -/
def stageDiagnostics (filename : Chars) (st : ScanState) : List Chars :=
  match st.stages with
  | [] => []
  | (l0, t0) :: rest =>
    (if st.firstNonPPLine < st.firstPragmaShaderStage then [misplacedDiag filename l0] else [])
      ++ (if MapStageNameToLanguage t0 = EShLanguage.EShLangCount then
            [invalidStageDiag filename l0 t0]
          else [])
      ++ (rest.filter (fun p => p.2 ≠ t0)).map (fun p => conflictDiag filename p.1 p.2 l0 t0)

/-- The `is_for_next_line` flag computed at compiler.cc lines 285-288 from the
deduced version and profile of the preprocessed shader. -/
def deducedIsForNextLine (c : Compiler) (preprocessedShader : Chars) : Bool :=
  LineDirectiveIsForNextLine (DeduceVersionProfile c preprocessedShader).1
    (DeduceVersionProfile c preprocessedShader).2

/-- The scan state produced for a given compiler and preprocessed shader. -/
def stageScanOf (c : Compiler) (preprocessedShader : Chars) : ScanState :=
  scanShaderStages (deducedIsForNextLine c preprocessedShader) preprocessedShader

/-- compiler.cc lines 280-358: `Compiler::GetShaderStageFromSourceCode`.
With no recorded stage pragma the result is `(EShLangCount, "")` (line 324);
otherwise the first recorded name is mapped to a stage, which is returned
exactly when the accumulated `error_message` is empty (lines 356-357). -/
def GetShaderStageFromSourceCode (c : Compiler) (filename preprocessedShader : Chars) :
    EShLanguage × Chars :=
  let st := stageScanOf c preprocessedShader
  match st.stages with
  | [] => (EShLanguage.EShLangCount, [])
  | (_, t0) :: _ =>
    let msg := (stageDiagnostics filename st).flatten
    (if msg = [] then MapStageNameToLanguage t0 else EShLanguage.EShLangCount, msg)

/-- A field ends with a newline character. -/
def endsNL (f : Chars) : Prop := f.getLast? = some '\n'

/-- A field is a well-formed line: nonempty, with no newline before its last
character. -/
def isLine (f : Chars) : Prop := f ≠ [] ∧ '\n' ∉ f.dropLast

/-- A list of fields reconstructible by newline splitting: every field is a
line and every field except the last ends with a newline. -/
def isLineList : List Chars → Prop
  | [] => True
  | f :: fs => isLine f ∧ (fs = [] ∨ (endsNL f ∧ isLineList fs))

/-- Every field is a newline-terminated line. -/
def allNL (fs : List Chars) : Prop := ∀ f ∈ fs, isLine f ∧ endsNL f

/-- Unfolding lemma for `isLineList` on a nonempty list. -/
theorem isLineList_cons_iff {f : Chars} {fs : List Chars} :
    isLineList (f :: fs) ↔ isLine f ∧ (fs = [] ∨ (endsNL f ∧ isLineList fs)) := Iff.rfl

/-- A field that ends with a newline is its `dropLast` plus that newline. -/
theorem endsNL_decomp {f : Chars} (h : endsNL f) : f = f.dropLast ++ ['\n'] := by
  have hne : f ≠ [] := by
    intro hnil
    rw [hnil] at h
    simp [endsNL] at h
  have hlast := List.getLast?_eq_getLast f hne
  unfold endsNL at h
  rw [hlast] at h
  have hlv : f.getLast hne = '\n' := Option.some.inj h
  conv_lhs => rw [← List.dropLast_append_getLast hne, hlv]

/-- A line that does not end with a newline contains no newline at all. -/
theorem not_mem_nl_of_isLine {f : Chars} (h : isLine f) (hn : ¬ endsNL f) : '\n' ∉ f := by
  intro hmem
  have hne := h.1
  have hd := List.dropLast_append_getLast hne
  rw [← hd] at hmem
  rcases List.mem_append.1 hmem with h1 | h1
  · exact h.2 h1
  · have hlv' : '\n' = f.getLast hne := by simpa using h1
    refine hn ?_
    unfold endsNL
    rw [List.getLast?_eq_getLast f hne, ← hlv']

/-- Consuming a delimiter-free prefix just moves it into the accumulator. -/
theorem getFieldsAux_append (d : Char) (keep : Bool) :
    ∀ (body rest acc : Chars), d ∉ body →
      getFieldsAux d keep acc (body ++ rest) = getFieldsAux d keep (acc ++ body) rest
  | [], rest, acc, _ => by simp
  | b :: bs, rest, acc, h => by
    have hb : ¬ (b = d) := by
      intro hbd
      exact h (by simp [hbd])
    show getFieldsAux d keep acc (b :: (bs ++ rest)) = _
    rw [getFieldsAux, if_neg hb,
      getFieldsAux_append d keep bs rest (acc ++ [b]) (fun hm => h (by simp [hm]))]
    simp

/-- The fields produced by newline splitting (keeping delimiters) form a
reconstructible line list, provided the accumulator holds no newline. -/
theorem isLineList_getFieldsAux :
    ∀ (s acc : Chars), '\n' ∉ acc → isLineList (getFieldsAux '\n' true acc s)
  | [], acc, h => by
    rw [getFieldsAux]
    by_cases hacc : acc = []
    · simp [hacc, isLineList]
    · rw [if_neg hacc, isLineList_cons_iff]
      exact ⟨⟨hacc, fun hm => h (List.dropLast_subset acc hm)⟩, Or.inl rfl⟩
  | c :: cs, acc, h => by
    rw [getFieldsAux]
    by_cases hc : c = '\n'
    · subst hc
      rw [if_pos rfl, isLineList_cons_iff]
      have hline : isLine (acc ++ if true then ['\n'] else []) := by
        refine ⟨by simp, ?_⟩
        simpa using h
      refine ⟨hline, ?_⟩
      rcases hrec : getFieldsAux '\n' true [] cs with _ | ⟨g, gs⟩
      · exact Or.inl rfl
      · have hNL : endsNL (acc ++ if true then ['\n'] else []) := by
          unfold endsNL
          simp
        refine Or.inr ⟨hNL, ?_⟩
        rw [← hrec]
        exact isLineList_getFieldsAux cs [] (by simp)
    · rw [if_neg hc]
      refine isLineList_getFieldsAux cs (acc ++ [c]) ?_
      intro hm
      rcases List.mem_append.1 hm with h1 | h1
      · exact h h1
      · have h2 : '\n' = c := by simpa using h1
        exact hc h2.symm

/-- The newline splitting of any text is a reconstructible line list. -/
theorem isLineList_get_fields (s : Chars) : isLineList (get_fields s '\n' true) :=
  isLineList_getFieldsAux s [] (by simp)

/-- Splitting the concatenation of a reconstructible line list returns the
very same list of fields. -/
theorem get_fields_flatten : ∀ fs : List Chars, isLineList fs →
    get_fields fs.flatten '\n' true = fs
  | [], _ => rfl
  | f :: fs, h => by
    obtain ⟨hline, hrest⟩ := h
    rcases hrest with hnil | ⟨hNL, hrec⟩
    · subst hnil
      show get_fields (f ++ []) '\n' true = [f]
      by_cases hNL : endsNL f
      · have hd := endsNL_decomp hNL
        unfold get_fields
        rw [List.append_nil]
        conv_lhs => rw [hd]
        rw [getFieldsAux_append '\n' true f.dropLast ['\n'] [] hline.2]
        rw [getFieldsAux, if_pos rfl]
        rw [getFieldsAux]
        simp [← hd]
      · have hnot := not_mem_nl_of_isLine hline hNL
        unfold get_fields
        rw [List.append_nil]
        rw [show f = f ++ ([] : Chars) by simp,
          getFieldsAux_append '\n' true f [] [] hnot]
        rw [getFieldsAux]
        simp [hline.1]
    · have hd := endsNL_decomp hNL
      show get_fields (f ++ fs.flatten) '\n' true = f :: fs
      unfold get_fields
      conv_lhs => rw [hd]
      rw [List.append_assoc, List.singleton_append]
      rw [getFieldsAux_append '\n' true f.dropLast ('\n' :: fs.flatten) [] hline.2]
      rw [getFieldsAux, if_pos rfl]
      have := get_fields_flatten fs hrec
      unfold get_fields at this
      rw [this]
      simp [← hd]

/-- Every member of a reconstructible line list is a line. -/
theorem isLineList_mem : ∀ fs : List Chars, isLineList fs → ∀ f ∈ fs, isLine f
  | [], _, _, hf => absurd hf (List.not_mem_nil _)
  | g :: gs, h, f, hf => by
    rcases List.mem_cons.1 hf with rfl | hf'
    · exact h.1
    · rcases h.2 with hnil | ⟨_, hrec⟩
      · subst hnil; exact absurd hf' (List.not_mem_nil _)
      · exact isLineList_mem gs hrec f hf'

/-- Every non-final member of a reconstructible line list ends with a
newline. -/
theorem isLineList_endsNL : ∀ fs : List Chars, isLineList fs →
    ∀ i : Nat, i + 1 < fs.length → endsNL (fs.getD i [])
  | [], _, i, hi => by simp at hi
  | g :: gs, h, 0, hi => by
    have hgs : gs ≠ [] := by
      intro hnil
      rw [hnil] at hi
      simp at hi
    rcases h.2 with hnil | ⟨hNL, _⟩
    · exact absurd hnil hgs
    · simpa using hNL
  | g :: gs, h, i + 1, hi => by
    have hgs : gs ≠ [] := by
      intro hnil
      rw [hnil] at hi
      simp at hi
    rcases h.2 with hnil | ⟨_, hrec⟩
    · exact absurd hnil hgs
    · simpa using isLineList_endsNL gs hrec i (by simpa using hi)

/-- The tail of a reconstructible line list is one. -/
theorem isLineList_tail {f : Chars} {fs : List Chars} (h : isLineList (f :: fs)) :
    isLineList fs := by
  rcases h.2 with hnil | ⟨_, hrec⟩
  · subst hnil; trivial
  · exact hrec

/-- Dropping a prefix of a reconstructible line list leaves one. -/
theorem isLineList_drop : ∀ (k : Nat) (fs : List Chars), isLineList fs →
    isLineList (fs.drop k)
  | 0, _, h => h
  | _ + 1, [], h => h
  | k + 1, _ :: fs, h => isLineList_drop k fs (isLineList_tail h)

/-- Prepending newline-terminated lines to a reconstructible line list gives
a reconstructible line list. -/
theorem isLineList_append : ∀ (xs ys : List Chars), allNL xs → isLineList ys →
    isLineList (xs ++ ys)
  | [], ys, _, hy => hy
  | x :: xs, ys, hx, hy => by
    have hhead := hx x (by simp)
    have htail : isLineList (xs ++ ys) :=
      isLineList_append xs ys (fun f hf => hx f (by simp [hf])) hy
    rw [List.cons_append, isLineList_cons_iff]
    exact ⟨hhead.1, Or.inr ⟨hhead.2, htail⟩⟩

/-- A nonempty suffix determines the element and the following suffix. -/
theorem drop_cons_head {lines : List Chars} {i : Nat} {l : Chars} {ls : List Chars}
    (h : lines.drop i = l :: ls) :
    i < lines.length ∧ lines.getD i [] = l ∧ lines.drop (i + 1) = ls := by
  have hlt : i < lines.length := by
    by_contra hge
    rw [List.drop_of_length_le (by omega)] at h
    exact List.noConfusion h
  have hd := List.drop_eq_getElem_cons hlt
  rw [h] at hd
  injection hd with hd1 hd2
  refine ⟨hlt, ?_, hd2.symm⟩
  rw [List.getD_eq_getElem lines [] hlt, ← hd1]

/-- The `pound_extension_index` accumulator of the first `CleanupPreamble`
loop never increases. -/
theorem scanGo_pe_le (pE : Chars) (n : Nat) :
    ∀ (ls : List Chars) (i pe : Nat), (scanIndicesGo pE n i ls pe).1 ≤ pe
  | [], _, _ => le_refl _
  | l :: ls, i, pe => by
    rw [scanIndicesGo]
    by_cases h1 : l = pE
    · rw [if_pos h1]
      exact le_trans (scanGo_pe_le pE n ls (i + 1) (min i pe)) (min_le_right _ _)
    · rw [if_neg h1]
      by_cases h2 : starts_with ("#version".data) l = true
      · rw [if_pos h2]
      · rw [if_neg h2]
        exact scanGo_pe_le pE n ls (i + 1) pe

/-- Whenever `pound_extension_index` is a real index it points at a line
equal to the injected directive. -/
theorem scanGo_pe_mem (pE : Chars) (lines : List Chars) :
    ∀ (ls : List Chars) (i pe : Nat), lines.drop i = ls →
      (pe = lines.length ∨ (pe < lines.length ∧ lines.getD pe [] = pE)) →
      ((scanIndicesGo pE lines.length i ls pe).1 = lines.length
        ∨ ((scanIndicesGo pE lines.length i ls pe).1 < lines.length
            ∧ lines.getD (scanIndicesGo pE lines.length i ls pe).1 [] = pE))
  | [], _, _, _, hinv => hinv
  | l :: ls, i, pe, hdrop, hinv => by
    obtain ⟨hlt, hgetD, hdrop'⟩ := drop_cons_head hdrop
    rw [scanIndicesGo]
    by_cases h1 : l = pE
    · rw [if_pos h1]
      refine scanGo_pe_mem pE lines ls (i + 1) (min i pe) hdrop' ?_
      rcases Nat.le_total i pe with hle | hle
      · rw [Nat.min_eq_left hle]
        exact Or.inr ⟨hlt, by rw [hgetD, h1]⟩
      · rw [Nat.min_eq_right hle]
        exact hinv
    · rw [if_neg h1]
      by_cases h2 : starts_with ("#version".data) l = true
      · rw [if_pos h2]
        exact hinv
      · rw [if_neg h2]
        exact scanGo_pe_mem pE lines ls (i + 1) pe hdrop' hinv

/-- When the loop breaks at a `#version` line, `pound_extension_index` is
either unassigned or strictly before `pound_version_index`. -/
theorem scanGo_pe_lt_pv (pE : Chars) (n : Nat) :
    ∀ (ls : List Chars) (i pe : Nat), (pe = n ∨ pe < i) →
      (scanIndicesGo pE n i ls pe).2 < n →
      ((scanIndicesGo pE n i ls pe).1 = n
        ∨ (scanIndicesGo pE n i ls pe).1 < (scanIndicesGo pE n i ls pe).2)
  | [], _, _, _, hlt => absurd hlt (lt_irrefl n)
  | l :: ls, i, pe, hinv, hlt => by
    rw [scanIndicesGo] at hlt ⊢
    by_cases h1 : l = pE
    · rw [if_pos h1] at hlt ⊢
      exact scanGo_pe_lt_pv pE n ls (i + 1) (min i pe)
        (Or.inr (Nat.lt_succ_of_le (min_le_left i pe))) hlt
    · rw [if_neg h1] at hlt ⊢
      by_cases h2 : starts_with ("#version".data) l = true
      · rw [if_pos h2] at hlt ⊢
        rcases hinv with h | h
        · exact Or.inl h
        · exact Or.inr h
      · rw [if_neg h2] at hlt ⊢
        refine scanGo_pe_lt_pv pE n ls (i + 1) pe ?_ hlt
        rcases hinv with h | h
        · exact Or.inl h
        · exact Or.inr (by omega)

/-- If some `#version` line precedes every line equal to the injected
directive, the first loop breaks before assigning `pound_extension_index`. -/
theorem scanGo_break_early (pE : Chars) (lines : List Chars) (v : Nat)
    (hv : v < lines.length)
    (hver : starts_with ("#version".data) (lines.getD v []) = true)
    (hafter : ∀ j, j < lines.length → lines.getD j [] = pE → v < j) :
    ∀ (ls : List Chars) (i : Nat), lines.drop i = ls → i ≤ v →
      (scanIndicesGo pE lines.length i ls lines.length).1 = lines.length
  | [], i, hdrop, hle => by
    have hge : lines.length ≤ i := List.drop_eq_nil_iff.1 hdrop
    omega
  | l :: ls, i, hdrop, hle => by
    obtain ⟨hlt, hgetD, hdrop'⟩ := drop_cons_head hdrop
    rw [scanIndicesGo]
    by_cases h1 : l = pE
    · exfalso
      have := hafter i hlt (by rw [hgetD, h1])
      omega
    · rw [if_neg h1]
      by_cases h2 : starts_with ("#version".data) l = true
      · rw [if_pos h2]
      · rw [if_neg h2]
        have hne : i ≠ v := by
          intro hiv
          subst hiv
          rw [hgetD] at hver
          exact h2 hver
        exact scanGo_break_early pE lines v hv hver hafter ls (i + 1) hdrop' (by omega)

/-- If a line equal to the injected directive precedes every `#version`
line, the first loop assigns `pound_extension_index` at or before it. -/
theorem scanGo_reach (pE : Chars) (lines : List Chars) (e : Nat)
    (he : e < lines.length)
    (hpeq : lines.getD e [] = pE)
    (hbefore : ∀ j, j < lines.length →
        starts_with ("#version".data) (lines.getD j []) = true → e < j) :
    ∀ (ls : List Chars) (i pe : Nat), lines.drop i = ls → i ≤ e →
      (scanIndicesGo pE lines.length i ls pe).1 ≤ e
  | [], i, pe, hdrop, hle => by
    have hge : lines.length ≤ i := List.drop_eq_nil_iff.1 hdrop
    omega
  | l :: ls, i, pe, hdrop, hle => by
    obtain ⟨hlt, hgetD, hdrop'⟩ := drop_cons_head hdrop
    rw [scanIndicesGo]
    by_cases h1 : l = pE
    · rw [if_pos h1]
      by_cases hie : i = e
      · subst hie
        exact le_trans (scanGo_pe_le pE lines.length ls (i + 1) (min i pe))
          (min_le_left i pe)
      · exact scanGo_reach pE lines e he hpeq hbefore ls (i + 1) (min i pe) hdrop' (by omega)
    · rw [if_neg h1]
      by_cases h2 : starts_with ("#version".data) l = true
      · exfalso
        have := hbefore i hlt (by rw [hgetD]; exact h2)
        omega
      · rw [if_neg h2]
        have hie : i ≠ e := by
          intro hh
          subst hh
          rw [hgetD] at hpeq
          exact h1 hpeq
        exact scanGo_reach pE lines e he hpeq hbefore ls (i + 1) pe hdrop' (by omega)

/-- A found `pound_extension_index` points at the injected directive. -/
theorem scanIndices_getD_pe {pE : Chars} {lines : List Chars} {pe pv : Nat}
    (hscan : scanIndices pE lines = (pe, pv)) (hpe : pe < lines.length) :
    lines.getD pe [] = pE := by
  have h := scanGo_pe_mem pE lines lines 0 lines.length rfl (Or.inl rfl)
  unfold scanIndices at hscan
  rw [hscan] at h
  rcases h with h | h
  · simp at h
    omega
  · exact h.2

/-- When both indices were assigned, the injected directive precedes the
`#version` line. -/
theorem scanIndices_pe_lt_pv {pE : Chars} {lines : List Chars} {pe pv : Nat}
    (hscan : scanIndices pE lines = (pe, pv)) (hpe : pe < lines.length)
    (hpv : pv < lines.length) : pe < pv := by
  have h := scanGo_pe_lt_pv pE lines.length lines 0 lines.length (Or.inl rfl)
  unfold scanIndices at hscan
  rw [hscan] at h
  have h2 := h hpv
  rcases h2 with h2 | h2
  · simp at h2
    omega
  · exact h2

/-- Mapping lookup over the index range recovers the dropped suffix. -/
theorem range'_map_getD (lines : List Chars) (k : Nat) :
    (List.range' k (lines.length - k)).map (fun i => lines.getD i []) = lines.drop k := by
  apply List.ext_getElem
  · simp
  · intro i h1 h2
    simp only [List.getElem_map, List.getElem_range', List.getElem_drop]
    rw [List.getD_eq_getElem]
    · congr 1
      omega
    · simp at h1
      omega

/-- With a zero include count the last loop of `CleanupPreamble` copies the
suffix verbatim. -/
theorem tailChunks_zero (lines : List Chars) (pe pv : Nat) :
    tailChunks lines pe pv 0 = lines.drop (pe + 1) := by
  unfold tailChunks
  rw [← range'_map_getD lines (pe + 1)]
  refine List.map_congr_left ?_
  intro i _
  unfold tailChunk
  by_cases h : i = pv
  · rw [if_pos h, if_neg (by norm_num : ¬ ((0 : Int) < 0))]
  · rw [if_neg h]

/-- The lines kept by the second loop are newline-terminated lines. -/
theorem allNL_keptPrefix {lines : List Chars} (h : isLineList lines) {pe : Nat}
    (hpe : pe < lines.length) : allNL (keptPrefixChunks lines pe) := by
  intro f hf
  have hf' : f ∈ lines.take pe := List.mem_of_mem_filter hf
  obtain ⟨i, hi, hfi⟩ := List.mem_iff_getElem.1 hf'
  have hi' : i < pe := by
    simp at hi
    omega
  have hil : i < lines.length := by omega
  have htake : (lines.take pe)[i] = lines[i] := List.getElem_take ..
  have hfl : f = lines[i] := by rw [← hfi, htake]
  constructor
  · exact isLineList_mem lines h f (by rw [hfl]; exact List.getElem_mem hil)
  · have hnl := isLineList_endsNL lines h i (by omega)
    rw [List.getD_eq_getElem lines [] hil] at hnl
    rw [hfl]
    exact hnl

/-- Closed form of the canonicalized output's line split when the include
count is zero: the kept prefix followed by the untouched suffix. -/
theorem cleanup_zero_get_fields (s tag : Chars) (isNext : Bool) (pe pv : Nat)
    (hscan : scanIndices poundExtension (get_fields s '\n' true) = (pe, pv))
    (hpe : pe < (get_fields s '\n' true).length) :
    get_fields (CleanupPreamble s tag poundExtension 0 isNext) '\n' true
      = keptPrefixChunks (get_fields s '\n' true) pe
        ++ (get_fields s '\n' true).drop (pe + 1) := by
  have hlines := isLineList_get_fields s
  have hchunks : CleanupPreambleLines (get_fields s '\n' true) tag poundExtension 0 isNext
      = keptPrefixChunks (get_fields s '\n' true) pe
        ++ (get_fields s '\n' true).drop (pe + 1) := by
    simp only [CleanupPreambleLines, hscan]
    rw [versionHeadChunks, includeChunks, tailChunks_zero]
    rw [if_neg (by simp), if_neg (by norm_num : ¬ ((0 : Int) < 0))]
    simp
  unfold CleanupPreamble
  rw [hchunks]
  exact get_fields_flatten _
    (isLineList_append _ _ (allNL_keptPrefix hlines hpe) (isLineList_drop (pe + 1) _ hlines))

/-- `firstLine` of a newline-free prefix followed by a newline. -/
theorem firstLine_append_nl : ∀ (b r : Chars), '\n' ∉ b →
    firstLine (b ++ '\n' :: r) = b ++ ['\n']
  | [], r, _ => by simp [firstLine]
  | c :: b, r, h => by
    have hc : ¬ (c = '\n') := fun hc => h (by simp [hc])
    show firstLine (c :: (b ++ '\n' :: r)) = c :: (b ++ ['\n'])
    rw [firstLine, if_neg hc, firstLine_append_nl b r (fun hm => h (by simp [hm]))]

/-- The first physical line of a text starting with a newline-terminated
line is that line. -/
theorem firstLine_of_line (f r : Chars) (h1 : isLine f) (h2 : endsNL f) :
    firstLine (f ++ r) = f := by
  have hd := endsNL_decomp h2
  conv_lhs => rw [hd]
  rw [List.append_assoc, List.singleton_append, firstLine_append_nl f.dropLast r h1.2, ← hd]

/-- With a positive include count the canonicalized output starts with the
relocated `#version` line. -/
theorem cleanup_pos_head (s tag : Chars) (isNext : Bool) (pe pv : Nat) (numInc : Int)
    (hscan : scanIndices poundExtension (get_fields s '\n' true) = (pe, pv))
    (hpv : pv < (get_fields s '\n' true).length)
    (hinc : 0 < numInc) :
    CleanupPreamble s tag poundExtension numInc isNext
      = (get_fields s '\n' true).getD pv []
        ++ (keptPrefixChunks (get_fields s '\n' true) pe
            ++ includeChunks tag poundExtension numInc isNext
            ++ tailChunks (get_fields s '\n' true) pe pv numInc).flatten := by
  unfold CleanupPreamble
  simp only [CleanupPreambleLines, hscan]
  rw [versionHeadChunks, if_pos ⟨hpv, hinc⟩]
  simp [List.flatten_append, List.append_assoc]

/-- A failed search means the pattern heads no suffix. -/
theorem findSubstrFrom_none (pat : Chars) :
    ∀ (t : Chars) (i : Nat), findSubstrFrom pat i t = none →
      ∀ j, starts_with pat (t.drop j) = false
  | [], i, h, j => by
    rw [findSubstrFrom] at h
    by_cases hp : starts_with pat [] = true
    · rw [if_pos hp] at h
      exact Option.noConfusion h
    · rw [List.drop_nil]
      exact Bool.eq_false_iff.2 hp
  | c :: ts, i, h, j => by
    rw [findSubstrFrom] at h
    by_cases hp : starts_with pat (c :: ts) = true
    · rw [if_pos hp] at h
      exact Option.noConfusion h
    · rw [if_neg hp] at h
      match j with
      | 0 => exact Bool.eq_false_iff.2 hp
      | j + 1 => exact findSubstrFrom_none pat ts (i + 1) h j

/-- A successful search finds the leftmost suffix headed by the pattern. -/
theorem findSubstrFrom_some (pat : Chars) :
    ∀ (t : Chars) (i r : Nat), findSubstrFrom pat i t = some r →
      i ≤ r ∧ starts_with pat (t.drop (r - i)) = true
        ∧ ∀ j, j < r - i → starts_with pat (t.drop j) = false
  | [], i, r, h => by
    rw [findSubstrFrom] at h
    by_cases hp : starts_with pat [] = true
    · rw [if_pos hp] at h
      injection h with h
      subst h
      exact ⟨le_refl _, by simpa using hp, fun j hj => by omega⟩
    · rw [if_neg hp] at h
      exact Option.noConfusion h
  | c :: ts, i, r, h => by
    rw [findSubstrFrom] at h
    by_cases hp : starts_with pat (c :: ts) = true
    · rw [if_pos hp] at h
      injection h with h
      subst h
      exact ⟨le_refl _, by simpa using hp, fun j hj => by omega⟩
    · rw [if_neg hp] at h
      obtain ⟨hle, hpre, hmin⟩ := findSubstrFrom_some pat ts (i + 1) r h
      refine ⟨by omega, ?_, ?_⟩
      · have hru : r - i = (r - (i + 1)) + 1 := by omega
        rw [hru]
        exact hpre
      · intro j hj
        match j with
        | 0 => exact Bool.eq_false_iff.2 hp
        | j + 1 => exact hmin j (by omega)

/-- Appending a nonempty list on the right gives a nonempty list. -/
theorem append_ne_nil_right {a b : Chars} (hb : b ≠ []) : a ++ b ≠ [] := by
  intro h
  exact hb (List.append_eq_nil.1 h).2

/-- The flattening of a nonempty list of nonempty pieces is nonempty. -/
theorem flatten_ne_nil {ds : List Chars} (hne : ds ≠ []) (h : ∀ d ∈ ds, d ≠ []) :
    ds.flatten ≠ [] := by
  match ds with
  | [] => exact absurd rfl hne
  | d :: ds =>
    rw [List.flatten_cons]
    intro hcontra
    exact h d (by simp) (List.append_eq_nil.1 hcontra).1

/-- Every accumulated diagnostic is a nonempty string. -/
theorem stageDiagnostics_ne_nil (filename : Chars) (st : ScanState) :
    ∀ d ∈ stageDiagnostics filename st, d ≠ [] := by
  intro d hd
  unfold stageDiagnostics at hd
  rcases hst : st.stages with _ | ⟨⟨l0, t0⟩, rest⟩
  · rw [hst] at hd
    simp at hd
  · rw [hst] at hd
    simp only [] at hd
    rcases List.mem_append.1 hd with h1 | h1
    · rcases List.mem_append.1 h1 with h2 | h2
      · by_cases hc : st.firstNonPPLine < st.firstPragmaShaderStage
        · rw [if_pos hc] at h2
          have hde : d = misplacedDiag filename l0 := by simpa using h2
          rw [hde]
          exact append_ne_nil_right (by decide)
        · rw [if_neg hc] at h2
          simp at h2
      · by_cases hc : MapStageNameToLanguage t0 = EShLanguage.EShLangCount
        · rw [if_pos hc] at h2
          have hde : d = invalidStageDiag filename l0 t0 := by simpa using h2
          rw [hde]
          exact append_ne_nil_right (by decide)
        · rw [if_neg hc] at h2
          simp at h2
    · obtain ⟨p, _, hde⟩ := List.mem_map.1 h1
      rw [← hde]
      exact append_ne_nil_right (by decide)

/-- Reduction of `stageDiagnostics` when a first stage pragma was found. -/
theorem stageDiagnostics_cons (filename : Chars) (st : ScanState) (l0 : Nat) (t0 : Chars)
    (rest : List (Nat × Chars)) (hst : st.stages = (l0, t0) :: rest) :
    stageDiagnostics filename st =
      (if st.firstNonPPLine < st.firstPragmaShaderStage then [misplacedDiag filename l0]
        else [])
        ++ (if MapStageNameToLanguage t0 = EShLanguage.EShLangCount then
              [invalidStageDiag filename l0 t0]
            else [])
        ++ (rest.filter (fun p => p.2 ≠ t0)).map
            (fun p => conflictDiag filename p.1 p.2 l0 t0) := by
  unfold stageDiagnostics
  rw [hst]

/-- Reduction of `GetShaderStageFromSourceCode` when no pragma was found. -/
theorem getShaderStage_nil (c : Compiler) (filename s : Chars)
    (hst : (stageScanOf c s).stages = []) :
    GetShaderStageFromSourceCode c filename s = (EShLanguage.EShLangCount, []) := by
  simp only [GetShaderStageFromSourceCode]
  rw [hst]

/-- Reduction of `GetShaderStageFromSourceCode` when a pragma was found. -/
theorem getShaderStage_cons (c : Compiler) (filename s : Chars) (l0 : Nat) (t0 : Chars)
    (rest : List (Nat × Chars)) (hst : (stageScanOf c s).stages = (l0, t0) :: rest) :
    GetShaderStageFromSourceCode c filename s =
      (if (stageDiagnostics filename (stageScanOf c s)).flatten = []
        then MapStageNameToLanguage t0
        else EShLanguage.EShLangCount,
       (stageDiagnostics filename (stageScanOf c s)).flatten) := by
  simp only [GetShaderStageFromSourceCode]
  rw [hst]

/-- C7: `LineDirectiveIsForNextLine` returns true if and only if the profile
is the ES profile or the version is at least 330; in particular it is true
for any version under the ES profile, false for `(150, ENoProfile)`, and
true for `(330, ENoProfile)`. -/
theorem claim7_line_directive_convention :
    (∀ (v : Int) (p : EProfile),
        LineDirectiveIsForNextLine v p = true ↔ (p = EProfile.EEsProfile ∨ 330 ≤ v))
    ∧ (∀ v : Int, LineDirectiveIsForNextLine v EProfile.EEsProfile = true)
    ∧ LineDirectiveIsForNextLine 150 EProfile.ENoProfile = false
    ∧ LineDirectiveIsForNextLine 330 EProfile.ENoProfile = true := by
  refine ⟨?_, ?_, by decide, by decide⟩
  · intro v p
    unfold LineDirectiveIsForNextLine
    simp
  · intro v
    unfold LineDirectiveIsForNextLine
    simp

/-- C5: during stage scanning, each physical line either resets the logical
counter for the next line to the parsed integer plus 0 (next-line
convention) or plus 1 (legacy convention) — the integer being what
`std::atoi` reads from the NUL-terminated buffer just past the line's
`#line` token — or increments the counter by 1.  In particular the line
following `#line 50` has logical line 50 under the next-line convention and
51 under the legacy convention; and on a bare `#line` line the whitespace
skip crosses the newline, so in `"#line\n9\n..."` the counter is read from
the next line (the pragma two lines later sits at logical line 10
resp. 11). -/
theorem claim5_logical_line_numbering :
    (∀ (isNext : Bool) (s : Chars) (i cur logical : Nat) (l : Chars) (ls : List Chars)
        (st : ScanState),
        scanGo isNext s i cur logical (l :: ls) st =
          scanGo isNext s (i + 1) (cur + l.length + 1)
            (if starts_with kLineDirective (stripWhitespace l) then
              toSizeT (atoiChars (s.drop (cur
                  + (l.length - (l.dropWhile isSpaceChar).length) + kLineDirective.length))
                + (if isNext then 0 else 1))
            else logical + 1)
            ls (scanStep i logical l st))
    ∧ (scanShaderStages true ("#line 50\n#pragma shader_stage(vertex)".data)).stages.map
        Prod.fst = [50]
    ∧ (scanShaderStages false ("#line 50\n#pragma shader_stage(vertex)".data)).stages.map
        Prod.fst = [51]
    ∧ (scanShaderStages true ("#line\n9\n#pragma shader_stage(vertex)\n".data)).stages.map
        Prod.fst = [10]
    ∧ (scanShaderStages false ("#line\n9\n#pragma shader_stage(vertex)\n".data)).stages.map
        Prod.fst = [11] :=
  ⟨fun _ _ _ _ _ _ _ _ => rfl, by decide, by decide, by decide, by decide⟩

/-- C6: `GetVersionProfileFromSourceCode` returns `(0, ENoProfile)` when the
literal token `#version` does not occur in the text; otherwise it takes the
rest of that line up to the next newline, removes all space characters, and
returns the parsed pair when the remainder parses, and `(0, ENoProfile)` when
that parse fails — never a partially parsed result. -/
theorem claim6_version_profile_contract (s : Chars) :
    (findSubstr ("#version".data) s = none →
        GetVersionProfileFromSourceCode s = (0, EProfile.ENoProfile)
        ∧ ∀ j, starts_with ("#version".data) (s.drop j) = false)
    ∧ (∀ loc, findSubstr ("#version".data) s = some loc →
        starts_with ("#version".data) (s.drop loc) = true
        ∧ (∀ j, j < loc → starts_with ("#version".data) (s.drop j) = false)
        ∧ GetVersionProfileFromSourceCode s
            = (ParseVersionProfile
                (((s.drop (loc + ("#version".data).length)).takeWhile
                    (fun c => c ≠ '\n')).filter (fun c => c ≠ ' '))).getD
                (0, EProfile.ENoProfile)) := by
  constructor
  · intro h
    constructor
    · unfold GetVersionProfileFromSourceCode
      rw [h]
    · exact findSubstrFrom_none ("#version".data) s 0 h
  · intro loc h
    obtain ⟨_, hpre, hmin⟩ := findSubstrFrom_some ("#version".data) s 0 loc h
    refine ⟨by simpa using hpre, fun j hj => hmin j (by omega), ?_⟩
    simp only [GetVersionProfileFromSourceCode, h]
    rcases hp : ParseVersionProfile (((s.drop (loc + ("#version".data).length)).takeWhile
        (fun c => c ≠ '\n')).filter (fun c => c ≠ ' ')) with _ | r
    · simp [hp]
    · simp [hp]

/-- Witness for C6 at a concrete shader text. -/
theorem claim6_witness :
    GetVersionProfileFromSourceCode ("xy\n#version 310 es\nmain".data)
      = (310, EProfile.EEsProfile) := by
  have h := (claim6_version_profile_contract ("xy\n#version 310 es\nmain".data)).2 3 (by decide)
  rw [h.2.2]
  decide

/-- C8: the scanner returns the undetected sentinel with empty diagnostic
text when no stage pragma occurs; whenever it produced any diagnostic it
returns the invalid sentinel together with the concatenation of all
accumulated diagnostics; and a concrete stage identifier is returned only
when the diagnostic text is empty. -/
theorem claim8_resolution_shape (c : Compiler) (filename s : Chars) :
    ((stageScanOf c s).stages = [] →
        GetShaderStageFromSourceCode c filename s = (EShLanguage.EShLangCount, []))
    ∧ ((stageScanOf c s).stages ≠ [] →
        stageDiagnostics filename (stageScanOf c s) ≠ [] →
        GetShaderStageFromSourceCode c filename s
          = (EShLanguage.EShLangCount,
              (stageDiagnostics filename (stageScanOf c s)).flatten))
    ∧ ((GetShaderStageFromSourceCode c filename s).1 ≠ EShLanguage.EShLangCount →
        (GetShaderStageFromSourceCode c filename s).2 = []) := by
  refine ⟨getShaderStage_nil c filename s, ?_, ?_⟩
  · intro hne hdne
    rcases hst : (stageScanOf c s).stages with _ | ⟨⟨l0, t0⟩, rest⟩
    · exact absurd hst hne
    · have hmsg : (stageDiagnostics filename (stageScanOf c s)).flatten ≠ [] :=
        flatten_ne_nil hdne (stageDiagnostics_ne_nil filename _)
      rw [getShaderStage_cons c filename s l0 t0 rest hst, if_neg hmsg]
  · intro hres
    rcases hst : (stageScanOf c s).stages with _ | ⟨⟨l0, t0⟩, rest⟩
    · rw [getShaderStage_nil c filename s hst]
    · by_cases hmsg : (stageDiagnostics filename (stageScanOf c s)).flatten = []
      · rw [getShaderStage_cons c filename s l0 t0 rest hst]
        simpa using hmsg
      · exfalso
        rw [getShaderStage_cons c filename s l0 t0 rest hst] at hres
        rw [if_neg hmsg] at hres
        exact hres rfl

/-- Witness for C8: a conflicting pair of pragmas yields the sentinel with
all diagnostics attached. -/
theorem claim8_witness :
    GetShaderStageFromSourceCode ⟨110, EProfile.ENoProfile, false⟩ ("b.glsl".data)
        ("#pragma shader_stage(vertex)\n#pragma shader_stage(fragment)\n".data)
      = (EShLanguage.EShLangCount,
          (stageDiagnostics ("b.glsl".data)
            (stageScanOf ⟨110, EProfile.ENoProfile, false⟩
              ("#pragma shader_stage(vertex)\n#pragma shader_stage(fragment)\n".data))).flatten) :=
  (claim8_resolution_shape _ _ _).2.1 (by decide) (by decide)

/-- C4 counterexample: a text with exactly two stage-pragma occurrences whose
names differ, the first being a recognized stage, yields the invalid sentinel
with exactly one diagnostic, not two. -/
theorem claim4_counterexample :
    ((stageScanOf ⟨110, EProfile.ENoProfile, false⟩
        ("#pragma shader_stage(vertex)\n#pragma shader_stage(fragment)\n".data)).stages.map
          Prod.snd = ["vertex".data, "fragment".data])
    ∧ ("vertex".data : Chars) ≠ "fragment".data
    ∧ (stageDiagnostics ("a.glsl".data)
        (stageScanOf ⟨110, EProfile.ENoProfile, false⟩
          ("#pragma shader_stage(vertex)\n#pragma shader_stage(fragment)\n".data))).length = 1
    ∧ ¬ (stageDiagnostics ("a.glsl".data)
        (stageScanOf ⟨110, EProfile.ENoProfile, false⟩
          ("#pragma shader_stage(vertex)\n#pragma shader_stage(fragment)\n".data))).length = 2
    ∧ (GetShaderStageFromSourceCode ⟨110, EProfile.ENoProfile, false⟩ ("a.glsl".data)
        ("#pragma shader_stage(vertex)\n#pragma shader_stage(fragment)\n".data)).1
        = EShLanguage.EShLangCount := by
  decide

/-- C4 (amended): for a scan that recorded exactly two stage-pragma
occurrences with differing stage-name texts, where the first name is
unrecognized by the stage lookup and the first pragma is not misplaced, the
result is the invalid sentinel together with exactly two diagnostics. -/
theorem claim4_two_conflicting_pragmas (c : Compiler) (filename s : Chars)
    (l0 l1 : Nat) (t0 t1 : Chars)
    (hst : (stageScanOf c s).stages = [(l0, t0), (l1, t1)])
    (hdiff : t1 ≠ t0)
    (hinv : MapStageNameToLanguage t0 = EShLanguage.EShLangCount)
    (hplace : ¬ (stageScanOf c s).firstNonPPLine < (stageScanOf c s).firstPragmaShaderStage) :
    (GetShaderStageFromSourceCode c filename s).1 = EShLanguage.EShLangCount
    ∧ (stageDiagnostics filename (stageScanOf c s)).length = 2 := by
  have hd : stageDiagnostics filename (stageScanOf c s)
      = [invalidStageDiag filename l0 t0, conflictDiag filename l1 t1 l0 t0] := by
    rw [stageDiagnostics_cons filename (stageScanOf c s) l0 t0 [(l1, t1)] hst]
    rw [if_neg hplace, if_pos hinv]
    simp [hdiff]
  have hmsg : (stageDiagnostics filename (stageScanOf c s)).flatten ≠ [] := by
    rw [hd]
    refine flatten_ne_nil (by simp) ?_
    intro d hdm
    rcases List.mem_cons.1 hdm with rfl | hdm'
    · exact append_ne_nil_right (by decide)
    · rcases List.mem_cons.1 hdm' with rfl | hdm''
      · exact append_ne_nil_right (by decide)
      · simp at hdm''
  constructor
  · rw [getShaderStage_cons c filename s l0 t0 [(l1, t1)] hst]
    simp [hmsg]
  · rw [hd]
    rfl

/-- Witness for the amended C4 at a concrete shader text. -/
theorem claim4_witness :
    (GetShaderStageFromSourceCode ⟨110, EProfile.ENoProfile, false⟩ ("a.glsl".data)
        ("#pragma shader_stage(foo)\n#pragma shader_stage(fragment)\n".data)).1
        = EShLanguage.EShLangCount
    ∧ (stageDiagnostics ("a.glsl".data)
        (stageScanOf ⟨110, EProfile.ENoProfile, false⟩
          ("#pragma shader_stage(foo)\n#pragma shader_stage(fragment)\n".data))).length = 2 :=
  claim4_two_conflicting_pragmas _ _ _ 1 2 ("foo".data) ("fragment".data) (by decide)
    (by decide) (by decide) (by decide)

/-- A pattern heads its own extension. -/
theorem starts_with_append : ∀ (p b : Chars), starts_with p (p ++ b) = true
  | [], _ => rfl
  | c :: p, b => by
    show starts_with (c :: p) (c :: (p ++ b)) = true
    rw [starts_with]
    simp [starts_with_append p b]

/-- Lookup into a dropped suffix, within range. -/
theorem getD_drop_add (lines : List Chars) (k j : Nat) (h : k + j < lines.length) :
    (lines.drop k).getD j [] = lines.getD (k + j) [] := by
  rw [List.getD_eq_getElem _ [] (by simp; omega), List.getD_eq_getElem _ [] h]
  exact List.getElem_drop ..

/-- Lookup into the chunks of the last `CleanupPreamble` loop. -/
theorem tailChunks_getD (lines : List Chars) (pe pv : Nat) (numInc : Int) (i : Nat)
    (h : i < lines.length - (pe + 1)) :
    (tailChunks lines pe pv numInc).getD i [] = tailChunk lines pv numInc ((pe + 1) + i) := by
  unfold tailChunks
  rw [List.getD_eq_getElem _ [] (by simp; omega)]
  rw [List.getElem_map, List.getElem_range']
  congr 1
  omega

/-- Lists of the same length that agree away from index `k` have the same
`eraseIdx k`. -/
theorem eraseIdx_ext (a b : List Chars) (k : Nat) (hlen : a.length = b.length)
    (h : ∀ i, i < a.length → i ≠ k → a.getD i [] = b.getD i []) :
    a.eraseIdx k = b.eraseIdx k := by
  rw [List.eraseIdx_eq_take_drop_succ, List.eraseIdx_eq_take_drop_succ]
  congr 1
  · apply List.ext_getElem
    · simp [hlen]
    · intro i h1 h2
      have hik : i < k := by
        simp at h1
        omega
      have hia : i < a.length := by
        simp at h1
        omega
      rw [List.getElem_take, List.getElem_take]
      have hagree := h i hia (by omega)
      rw [List.getD_eq_getElem _ [] hia, List.getD_eq_getElem _ [] (by omega)] at hagree
      exact hagree
  · apply List.ext_getElem
    · simp [hlen]
    · intro i h1 h2
      rw [List.getElem_drop, List.getElem_drop]
      have hia : k + 1 + i < a.length := by
        simp at h1
        omega
      have hagree := h (k + 1 + i) hia (by omega)
      rw [List.getD_eq_getElem _ [] hia, List.getD_eq_getElem _ [] (by omega)] at hagree
      exact hagree

/-- C1 counterexample: at a concrete call with include count 1 and the legacy
convention, the text emitted after the injected directive is `#line 0`, and
the claimed `#line 2` directive occurs nowhere in the output. -/
theorem claim1_counterexample :
    CleanupPreamble poundExtension ("main.vert".data) poundExtension 1 false
      = poundExtension ++ "#line 0 \"main.vert\"\n".data
    ∧ ¬ ∃ A B : Chars,
        CleanupPreamble poundExtension ("main.vert".data) poundExtension 1 false
          = A ++ poundExtension ++ "#line 2 \"main.vert\"\n".data ++ B := by
  constructor
  · decide
  · rintro ⟨A, B, h⟩
    have hnone : findSubstrFrom ("#line 2 \"main.vert\"\n".data) 0
        (CleanupPreamble poundExtension ("main.vert".data) poundExtension 1 false) = none := by
      decide
    have hall := findSubstrFrom_none ("#line 2 \"main.vert\"\n".data)
      (CleanupPreamble poundExtension ("main.vert".data) poundExtension 1 false) 0 hnone
    have h' : CleanupPreamble poundExtension ("main.vert".data) poundExtension 1 false
        = (A ++ poundExtension) ++ ("#line 2 \"main.vert\"\n".data ++ B) := by
      rw [h]
      simp [List.append_assoc]
    have hj := hall (A ++ poundExtension).length
    rw [h', List.drop_left, starts_with_append] at hj
    exact Bool.noConfusion hj

/-- C1 (amended): for every canonicalization call with include count greater
than zero, `CleanupPreamble` emits, immediately after the injected directive
text, the literal `#line <n> "<tag>"` followed by a newline, where n = 1 if
the convention says the directive numbers the next line, and n = 0
otherwise. -/
theorem claim1_line_directive_after_extension (s tag : Chars) (numInc : Int) (isNext : Bool)
    (hinc : 0 < numInc) :
    ∃ A B : Chars, CleanupPreamble s tag poundExtension numInc isNext
      = A ++ poundExtension
          ++ ("#line ".data ++ (if isNext then "1".data else "0".data)
              ++ " \"".data ++ tag ++ "\"\n".data)
          ++ B := by
  have hdir : GetLineDirective (if isNext then 1 else 0) tag
      = "#line ".data ++ (if isNext then "1".data else "0".data)
          ++ " \"".data ++ tag ++ "\"\n".data := by
    cases isNext
    · rfl
    · rfl
  refine ⟨(versionHeadChunks (get_fields s '\n' true)
        (scanIndices poundExtension (get_fields s '\n' true)).2 numInc).flatten
      ++ (keptPrefixChunks (get_fields s '\n' true)
          (scanIndices poundExtension (get_fields s '\n' true)).1).flatten,
    (tailChunks (get_fields s '\n' true)
        (scanIndices poundExtension (get_fields s '\n' true)).1
        (scanIndices poundExtension (get_fields s '\n' true)).2 numInc).flatten, ?_⟩
  unfold CleanupPreamble CleanupPreambleLines
  rw [includeChunks, if_pos hinc, hdir]
  simp [List.flatten_append, List.append_assoc]

/-- Witness for the amended C1 at a concrete call. -/
theorem claim1_witness :
    ∃ A B : Chars, CleanupPreamble poundExtension ("w.vert".data) poundExtension 1 true
      = A ++ poundExtension
          ++ ("#line ".data ++ (if true then "1".data else "0".data)
              ++ " \"".data ++ "w.vert".data ++ "\"\n".data)
          ++ B :=
  claim1_line_directive_after_extension poundExtension ("w.vert".data) 1 true (by decide)

/-- C2 counterexample: when the `#version` line is the final, unterminated
line of the preprocessed text, the output's first physical line is not that
`#version` line verbatim even though the include count is positive. -/
theorem claim2_counterexample :
    scanIndices poundExtension
        (get_fields (poundExtension ++ "#version 150".data) '\n' true) = (0, 1)
    ∧ (get_fields (poundExtension ++ "#version 150".data) '\n' true).getD 1 []
        = "#version 150".data
    ∧ starts_with ("#version".data)
        ((get_fields (poundExtension ++ "#version 150".data) '\n' true).getD 1 []) = true
    ∧ firstLine (CleanupPreamble (poundExtension ++ "#version 150".data) ("t.vert".data)
          poundExtension 1 true)
        ≠ "#version 150".data := by
  decide

/-- C2 (amended): with include count positive, and provided the first
`#version` line carries its trailing newline, the canonicalized output's
first physical line is that `#version` line verbatim; with include count
zero, the output is the kept prefix followed by the untouched suffix, in
which the `#version` line sits at its original relative position. -/
theorem claim2_version_first_line (s tag : Chars) (isNext : Bool) (pe pv : Nat)
    (hscan : scanIndices poundExtension (get_fields s '\n' true) = (pe, pv))
    (hpe : pe < (get_fields s '\n' true).length)
    (hpv : pv < (get_fields s '\n' true).length) :
    (∀ numInc : Int, 0 < numInc →
        endsNL ((get_fields s '\n' true).getD pv []) →
        firstLine (CleanupPreamble s tag poundExtension numInc isNext)
          = (get_fields s '\n' true).getD pv [])
    ∧ (get_fields (CleanupPreamble s tag poundExtension 0 isNext) '\n' true
          = keptPrefixChunks (get_fields s '\n' true) pe
            ++ (get_fields s '\n' true).drop (pe + 1)
        ∧ ((get_fields s '\n' true).drop (pe + 1)).getD (pv - (pe + 1)) []
            = (get_fields s '\n' true).getD pv []) := by
  have hlines := isLineList_get_fields s
  refine ⟨?_, cleanup_zero_get_fields s tag isNext pe pv hscan hpe, ?_⟩
  · intro numInc hinc hnl
    rw [cleanup_pos_head s tag isNext pe pv numInc hscan hpv hinc]
    refine firstLine_of_line _ _ ?_ hnl
    refine isLineList_mem _ hlines _ ?_
    rw [List.getD_eq_getElem _ [] hpv]
    exact List.getElem_mem hpv
  · have hlt : pe < pv := scanIndices_pe_lt_pv hscan hpe hpv
    rw [getD_drop_add _ _ _ (by omega)]
    have hidx : (pe + 1) + (pv - (pe + 1)) = pv := by omega
    rw [hidx]

/-- Witness for the amended C2 at a concrete shader text. -/
theorem claim2_witness :
    firstLine (CleanupPreamble (poundExtension ++ "#version 150\n".data) ("t.vert".data)
        poundExtension 1 true)
      = (get_fields (poundExtension ++ "#version 150\n".data) '\n' true).getD 1 []
    ∧ get_fields (CleanupPreamble (poundExtension ++ "#version 150\n".data) ("t.vert".data)
          poundExtension 0 true) '\n' true
        = keptPrefixChunks (get_fields (poundExtension ++ "#version 150\n".data) '\n' true) 0
            ++ (get_fields (poundExtension ++ "#version 150\n".data) '\n' true).drop 1 := by
  have h := claim2_version_first_line (poundExtension ++ "#version 150\n".data)
    ("t.vert".data) true 0 1 (by decide) (by decide) (by decide)
  exact ⟨h.1 1 (by decide) (by unfold endsNL; decide), h.2.1⟩

/-- C3: when the include count is zero and the preprocessed input contains
the injected include-enabling directive exactly once, the canonicalized
output contains neither that directive line nor any line that was not
already an input line — in particular no synthesized `#line` directive. -/
theorem claim3_zero_includes_reversible (s tag : Chars) (isNext : Bool) (pe pv : Nat)
    (hscan : scanIndices poundExtension (get_fields s '\n' true) = (pe, pv))
    (hpe : pe < (get_fields s '\n' true).length)
    (huniq : (get_fields s '\n' true).count poundExtension = 1) :
    poundExtension ∉ get_fields (CleanupPreamble s tag poundExtension 0 isNext) '\n' true
    ∧ ∀ f ∈ get_fields (CleanupPreamble s tag poundExtension 0 isNext) '\n' true,
        f ∈ get_fields s '\n' true := by
  have hform := cleanup_zero_get_fields s tag isNext pe pv hscan hpe
  rw [hform]
  have hpeq := scanIndices_getD_pe hscan hpe
  have hpe_elem : (get_fields s '\n' true)[pe] = poundExtension := by
    rw [← List.getD_eq_getElem _ [] hpe]
    exact hpeq
  have hdecomp : get_fields s '\n' true
      = (get_fields s '\n' true).take pe
        ++ poundExtension :: (get_fields s '\n' true).drop (pe + 1) := by
    conv_lhs => rw [← List.take_append_drop pe (get_fields s '\n' true),
      List.drop_eq_getElem_cons hpe, hpe_elem]
  have hcnt : ((get_fields s '\n' true).take pe).count poundExtension = 0
      ∧ ((get_fields s '\n' true).drop (pe + 1)).count poundExtension = 0 := by
    have h1 : (((get_fields s '\n' true).take pe)
        ++ poundExtension :: (get_fields s '\n' true).drop (pe + 1)).count poundExtension
        = 1 := by
      rw [← hdecomp]
      exact huniq
    rw [List.count_append, List.count_cons_self] at h1
    constructor <;> omega
  have hnot_take : poundExtension ∉ (get_fields s '\n' true).take pe :=
    List.count_eq_zero.1 hcnt.1
  have hnot_drop : poundExtension ∉ (get_fields s '\n' true).drop (pe + 1) :=
    List.count_eq_zero.1 hcnt.2
  constructor
  · intro hmem
    rcases List.mem_append.1 hmem with h1 | h1
    · exact hnot_take (List.mem_of_mem_filter h1)
    · exact hnot_drop h1
  · intro f hf
    rcases List.mem_append.1 hf with h1 | h1
    · exact List.take_subset pe _ (List.mem_of_mem_filter h1)
    · exact List.drop_subset (pe + 1) _ h1

/-- Witness for C3 at a concrete shader text with no include directive. -/
theorem claim3_witness :
    poundExtension ∉ get_fields (CleanupPreamble (poundExtension ++ "void main();\n".data)
        ("t3.vert".data) poundExtension 0 true) '\n' true
    ∧ ∀ f ∈ get_fields (CleanupPreamble (poundExtension ++ "void main();\n".data)
        ("t3.vert".data) poundExtension 0 true) '\n' true,
        f ∈ get_fields (poundExtension ++ "void main();\n".data) '\n' true :=
  claim3_zero_includes_reversible _ _ true 0 2 (by decide) (by decide) (by decide)

/-- C9: the search loop of `CleanupPreamble` breaks at the first `#version`
line, so when some `#version` line precedes every line equal to the injected
directive, the contract assertion fails even though the directive is present
in the input; the assertion is guaranteed to hold when the injected directive
precedes every `#version` line. -/
theorem claim9_assert_order_dependent :
    (∀ (s : Chars) (v : Nat),
        v < (get_fields s '\n' true).length →
        starts_with ("#version".data) ((get_fields s '\n' true).getD v []) = true →
        poundExtension ∈ get_fields s '\n' true →
        (∀ j, j < (get_fields s '\n' true).length →
            (get_fields s '\n' true).getD j [] = poundExtension → v < j) →
        ¬ CleanupPreambleAssert poundExtension (get_fields s '\n' true))
    ∧ (∀ (s : Chars) (e : Nat),
        e < (get_fields s '\n' true).length →
        (get_fields s '\n' true).getD e [] = poundExtension →
        (∀ j, j < (get_fields s '\n' true).length →
            starts_with ("#version".data) ((get_fields s '\n' true).getD j []) = true →
            e < j) →
        CleanupPreambleAssert poundExtension (get_fields s '\n' true)) := by
  constructor
  · intro s v hv hver _hmem hafter hcontra
    unfold CleanupPreambleAssert scanIndices at hcontra
    rw [scanGo_break_early poundExtension (get_fields s '\n' true) v hv hver hafter
      (get_fields s '\n' true) 0 rfl (by omega)] at hcontra
    exact lt_irrefl _ hcontra
  · intro s e he hpeq hbefore
    unfold CleanupPreambleAssert scanIndices
    calc (scanIndicesGo poundExtension (get_fields s '\n' true).length 0
          (get_fields s '\n' true) (get_fields s '\n' true).length).1
        ≤ e := scanGo_reach poundExtension (get_fields s '\n' true) e he hpeq hbefore
          (get_fields s '\n' true) 0 (get_fields s '\n' true).length rfl (by omega)
      _ < (get_fields s '\n' true).length := he

/-- Witness for C9: the assertion fails when a `#version` line comes first
and holds when the injected directive comes first. -/
theorem claim9_witness :
    ¬ CleanupPreambleAssert poundExtension
        (get_fields ("#version 150\n".data ++ poundExtension) '\n' true)
    ∧ CleanupPreambleAssert poundExtension
        (get_fields (poundExtension ++ "#version 330\n".data) '\n' true) :=
  ⟨claim9_assert_order_dependent.1 ("#version 150\n".data ++ poundExtension) 0 (by decide)
      (by decide) (by decide) (by decide),
    claim9_assert_order_dependent.2 (poundExtension ++ "#version 330\n".data) 0 (by decide)
      (by decide) (by decide)⟩

/-- C10: the canonicalized output ends with the flattened chunks of the last
loop; that chunk list has one entry per input line after the injected
directive, its entry for every index other than the `#version` index is the
input line verbatim (trailing newline included), and erasing the `#version`
slot leaves exactly the untouched input suffix — so no such line is altered,
reordered, or dropped. -/
theorem claim10_tail_lines_preserved (s tag : Chars) (numInc : Int) (isNext : Bool)
    (pe pv : Nat)
    (hscan : scanIndices poundExtension (get_fields s '\n' true) = (pe, pv))
    (hpe : pe < (get_fields s '\n' true).length) :
    ∃ front : Chars,
      CleanupPreamble s tag poundExtension numInc isNext
          = front ++ (tailChunks (get_fields s '\n' true) pe pv numInc).flatten
      ∧ (tailChunks (get_fields s '\n' true) pe pv numInc).length
          = (get_fields s '\n' true).length - (pe + 1)
      ∧ (∀ j, pe < j → j < (get_fields s '\n' true).length → j ≠ pv →
          (tailChunks (get_fields s '\n' true) pe pv numInc).getD (j - (pe + 1)) []
            = (get_fields s '\n' true).getD j [])
      ∧ (tailChunks (get_fields s '\n' true) pe pv numInc).eraseIdx (pv - (pe + 1))
          = ((get_fields s '\n' true).drop (pe + 1)).eraseIdx (pv - (pe + 1)) := by
  refine ⟨(versionHeadChunks (get_fields s '\n' true) pv numInc
        ++ keptPrefixChunks (get_fields s '\n' true) pe
        ++ includeChunks tag poundExtension numInc isNext).flatten, ?_, ?_, ?_, ?_⟩
  · unfold CleanupPreamble
    simp only [CleanupPreambleLines, hscan]
    simp [List.flatten_append, List.append_assoc]
  · unfold tailChunks
    simp
  · intro j hj1 hj2 hjpv
    have hlt : j - (pe + 1) < (get_fields s '\n' true).length - (pe + 1) := by omega
    rw [tailChunks_getD _ _ _ _ _ hlt]
    have hidx : (pe + 1) + (j - (pe + 1)) = j := by omega
    rw [hidx]
    unfold tailChunk
    rw [if_neg hjpv]
  · refine eraseIdx_ext _ _ _ ?_ ?_
    · unfold tailChunks
      simp
    · intro i hi hik
      have hi' : i < (get_fields s '\n' true).length - (pe + 1) := by
        unfold tailChunks at hi
        simpa using hi
      rw [tailChunks_getD _ _ _ _ _ hi', getD_drop_add _ _ _ (by omega)]
      unfold tailChunk
      rw [if_neg (by omega)]

/-- Witness for C10 at a concrete call. -/
theorem claim10_witness :
    ∃ front : Chars,
      CleanupPreamble (poundExtension ++ "#version 330\nvoid f();\n".data) ("t10.vert".data)
          poundExtension 1 true
          = front
            ++ (tailChunks (get_fields (poundExtension ++ "#version 330\nvoid f();\n".data)
                  '\n' true) 0 1 1).flatten
      ∧ (tailChunks (get_fields (poundExtension ++ "#version 330\nvoid f();\n".data)
            '\n' true) 0 1 1).length
          = (get_fields (poundExtension ++ "#version 330\nvoid f();\n".data) '\n' true).length
            - 1
      ∧ (∀ j, 0 < j →
          j < (get_fields (poundExtension ++ "#version 330\nvoid f();\n".data)
            '\n' true).length →
          j ≠ 1 →
          (tailChunks (get_fields (poundExtension ++ "#version 330\nvoid f();\n".data)
              '\n' true) 0 1 1).getD (j - 1) []
            = (get_fields (poundExtension ++ "#version 330\nvoid f();\n".data)
                '\n' true).getD j [])
      ∧ (tailChunks (get_fields (poundExtension ++ "#version 330\nvoid f();\n".data)
            '\n' true) 0 1 1).eraseIdx 0
          = ((get_fields (poundExtension ++ "#version 330\nvoid f();\n".data)
              '\n' true).drop 1).eraseIdx 0 :=
  claim10_tail_lines_preserved (poundExtension ++ "#version 330\nvoid f();\n".data)
    ("t10.vert".data) 1 true 0 1 (by decide) (by decide)

end Shaderc
